import Mathlib

/-!
Verification of the SyncText collaborative editor core against its
specification.  The C++ sources are shallowly embedded: `std::string`
becomes `List Char`, `std::vector` becomes `List`, the in-place loops of
`crdt.cpp` become structural recursions that thread the mutated state
explicitly.  Machine integers `int` are modelled as `Int` (no overflow
occurs in the reachable ranges considered) and `size_t` counters as `Nat`.
-/

namespace SyncText

/-- Byte strings of the C++ code (`std::string`), as lists of characters. -/
abbrev Str := List Char

/-- `OpType` from message.h: Insert = 1, Delete = 2, Replace = 3. -/
inductive OpType where
  | Insert
  | Delete
  | Replace
deriving DecidableEq, Repr

/-- `UpdateExt` from crdt.h: the merge-form operation record. -/
structure UpdateExt where
  ts : Nat
  uid : Str
  line : Nat
  cs : Int
  ce : Int
  op : OpType
  old_text : Str
  new_text : Str
deriving DecidableEq, Repr

/-- The tombstone sentinel written into `old_text` by chain coalescing. -/
def MERGED : Str := "###MERGED###".toList

/-- `overlaps` from crdt.cpp lines 6-19: conflict detection between two
updates (same line and intersecting column ranges; two pure inserts at the
same column always conflict). -/
def overlaps (a b : UpdateExt) : Bool :=
  if a.line ≠ b.line then false
  else if a.old_text = [] ∧ b.old_text = [] ∧ a.cs = b.cs then true
  else
    let a_end : Int := a.cs + (a.old_text.length : Int)
    let b_end : Int := b.cs + (b.old_text.length : Int)
    decide (¬ (a_end ≤ b.cs ∨ b_end ≤ a.cs))

/-- Lexicographic comparison of byte strings: the model of
`std::string::operator<` (compare characters left to right; on a common
first segment the shorter string is smaller). -/
def strLt : Str → Str → Bool
  | _, [] => false
  | [], _ :: _ => true
  | a :: as, b :: bs => if a < b then true else if b < a then false else strLt as bs

/-- `newer_wins` from crdt.cpp lines 22-25: LWW comparison, newer timestamp
wins, ties broken by lexicographically smaller user id. -/
def newer_wins (a b : UpdateExt) : Bool :=
  if a.ts ≠ b.ts then decide (b.ts < a.ts) else strLt a.uid b.uid

/-- `apply_update_to_line` from crdt.cpp lines 29-50: the single-operation
applier.  Empty lines are replaced wholesale by `new_text`; otherwise the
clamped column range `[max 0 cs, min ce (len-1)]` is spliced out and
`new_text` put in its place; an empty clamped range leaves the line
unchanged.  Note the function never reads `old_text`. -/
def apply_update_to_line (cur : Str) (u : UpdateExt) : Str :=
  if cur = [] then u.new_text
  else
    let start : Int := max 0 u.cs
    let stop : Int := min u.ce ((cur.length : Int) - 1)
    if start > stop then cur
    else
      cur.take start.toNat ++ u.new_text ++
        (if 0 ≤ stop ∧ stop + 1 < (cur.length : Int) then cur.drop (stop + 1).toNat else [])

/-- Inner loop of chain coalescing (crdt.cpp lines 71-83) for one fixed
`all[i]`: scan the later entries in order; whenever line, uid and column
match and the accumulated `new_text` equals the candidate's `old_text`,
absorb the candidate (taking its `new_text` and `ts`) and tombstone it by
overwriting its `old_text` with the `MERGED` sentinel. -/
def chainInner (a : UpdateExt) : List UpdateExt → UpdateExt × List UpdateExt
  | [] => (a, [])
  | b :: bs =>
    if a.line = b.line ∧ a.uid = b.uid ∧ a.new_text = b.old_text ∧ a.cs = b.cs then
      let a' := { a with new_text := b.new_text, ts := b.ts }
      let b' := { b with old_text := MERGED }
      let r := chainInner a' bs
      (r.1, b' :: r.2)
    else
      let r := chainInner a bs
      (r.1, b :: r.2)

/-- The inner coalescing scan only rewrites entries in place, so it
preserves the length of the suffix (needed for termination of the outer
loop). -/
theorem chainInner_length (a : UpdateExt) (l : List UpdateExt) :
    (chainInner a l).2.length = l.length := by
  induction l generalizing a with
  | nil => rfl
  | cons b bs ih =>
    unfold chainInner
    by_cases h : a.line = b.line ∧ a.uid = b.uid ∧ a.new_text = b.old_text ∧ a.cs = b.cs
    · simp only [if_pos h, List.length_cons, ih]
    · simp only [if_neg h, List.length_cons, ih]

/-- Outer loop of chain coalescing (crdt.cpp lines 70-84), with the number
of outer iterations (the vector length, which `chainInner` preserves) made
explicit so the recursion is structural. -/
def chainCoalesceGo : Nat → List UpdateExt → List UpdateExt
  | 0, l => l
  | _ + 1, [] => []
  | fuel + 1, a :: rest =>
    let r := chainInner a rest
    r.1 :: chainCoalesceGo fuel r.2

/-- Chain coalescing: process each entry in turn against the (already
mutated) remainder of the vector. -/
def chainCoalesce (l : List UpdateExt) : List UpdateExt :=
  chainCoalesceGo l.length l

/-- Unfolding rule for `chainCoalesce` on a nonempty vector. -/
theorem chainCoalesce_cons (a : UpdateExt) (rest : List UpdateExt) :
    chainCoalesce (a :: rest) =
      (chainInner a rest).1 :: chainCoalesce (chainInner a rest).2 := by
  show chainCoalesceGo (rest.length + 1) (a :: rest) = _
  unfold chainCoalesceGo chainCoalesce
  rw [chainInner_length]

/-- Inner loop of LWW resolution (crdt.cpp lines 92-104) for a fixed alive
`all[i]`: scan the later entries; dead entries are skipped, entries
tombstoned by coalescing are marked dead, and on overlap the loser of
`newer_wins` dies — if `all[i]` itself loses the inner loop breaks,
leaving the rest of the suffix untouched.  Returns whether `all[i]`
survived together with the updated suffix. -/
def resolveInner (a : UpdateExt) : List (UpdateExt × Bool) → Bool × List (UpdateExt × Bool)
  | [] => (true, [])
  | (b, aliveB) :: rest =>
    if aliveB = false then
      let r := resolveInner a rest
      (r.1, (b, aliveB) :: r.2)
    else if b.old_text = MERGED then
      let r := resolveInner a rest
      (r.1, (b, false) :: r.2)
    else if overlaps a b then
      if newer_wins a b then
        let r := resolveInner a rest
        (r.1, (b, false) :: r.2)
      else
        (false, (b, true) :: rest)
    else
      let r := resolveInner a rest
      (r.1, (b, aliveB) :: r.2)

/-- The inner resolution scan only flips alive flags, preserving length
(needed for termination of the outer loop). -/
theorem resolveInner_length (a : UpdateExt) (l : List (UpdateExt × Bool)) :
    (resolveInner a l).2.length = l.length := by
  induction l generalizing a with
  | nil => rfl
  | cons p rest ih =>
    obtain ⟨b, aliveB⟩ := p
    unfold resolveInner
    by_cases h1 : aliveB = false
    · simp only [if_pos h1, List.length_cons, ih]
    · by_cases h2 : b.old_text = MERGED
      · simp only [if_neg h1, if_pos h2, List.length_cons, ih]
      · by_cases h3 : overlaps a b
        · by_cases h4 : newer_wins a b
          · simp only [if_neg h1, if_neg h2, if_pos h3, if_pos h4, List.length_cons, ih]
          · simp only [if_neg h1, if_neg h2, if_pos h3, if_neg h4, List.length_cons]
        · simp only [if_neg h1, if_neg h2, if_neg h3, List.length_cons, ih]

/-- Outer loop of LWW resolution (crdt.cpp lines 87-105) over the alive
flags, with the number of outer iterations (the vector length, which
`resolveInner` preserves) made explicit so the recursion is structural:
dead or tombstoned heads are passed over (tombstoned ones marked dead), an
alive head fights the suffix via `resolveInner`. -/
def resolveOuterGo : Nat → List (UpdateExt × Bool) → List (UpdateExt × Bool)
  | 0, l => l
  | _ + 1, [] => []
  | fuel + 1, (a, aliveA) :: rest =>
    if aliveA = false then (a, false) :: resolveOuterGo fuel rest
    else if a.old_text = MERGED then (a, false) :: resolveOuterGo fuel rest
    else
      let r := resolveInner a rest
      (a, r.1) :: resolveOuterGo fuel r.2

/-- LWW resolution over the alive flags. -/
def resolveOuter (l : List (UpdateExt × Bool)) : List (UpdateExt × Bool) :=
  resolveOuterGo l.length l

/-- Unfolding rule for `resolveOuter` on a nonempty vector. -/
theorem resolveOuter_cons (a : UpdateExt) (aliveA : Bool)
    (rest : List (UpdateExt × Bool)) :
    resolveOuter ((a, aliveA) :: rest) =
      (if aliveA = false then (a, false) :: resolveOuter rest
       else if a.old_text = MERGED then (a, false) :: resolveOuter rest
       else (a, (resolveInner a rest).1) :: resolveOuter (resolveInner a rest).2) := by
  show resolveOuterGo (rest.length + 1) ((a, aliveA) :: rest) = _
  unfold resolveOuterGo resolveOuter
  rw [resolveInner_length]

/-- Conflict resolution composed with survivor collection
(crdt.cpp lines 87-111): all entries start alive, the nested loops run,
and the survivors are returned in order. -/
def resolveConflicts (l : List UpdateExt) : List UpdateExt :=
  ((resolveOuter (l.map fun u => (u, true))).filter fun p => p.2).map fun p => p.1

/-- The per-line comparator handed to `std::sort` in crdt.cpp lines
124-127: ascending column, then descending timestamp. -/
def opBefore (a b : UpdateExt) : Bool :=
  if a.cs ≠ b.cs then decide (a.cs < b.cs) else decide (b.ts < a.ts)

/-- Insert an element into an already sorted list, placing it after every
element that strictly precedes it under `opBefore` (a stable model of the
`std::sort` call; all groups arising in the theorems below have pairwise
distinct sort keys or are singletons, where stability is immaterial). -/
def insertOp (x : UpdateExt) : List UpdateExt → List UpdateExt
  | [] => [x]
  | y :: ys => if opBefore y x then y :: insertOp x ys else x :: y :: ys

/-- Stable insertion sort under `opBefore`. -/
def sortOps : List UpdateExt → List UpdateExt
  | [] => []
  | x :: xs => insertOp x (sortOps xs)

/-- Insert a line number into a sorted duplicate-free key list (models the
key set of the `std::map` in crdt.cpp line 114, iterated in ascending
order). -/
def insertKey (n : Nat) : List Nat → List Nat
  | [] => [n]
  | m :: ms => if n = m then m :: ms else if n < m then n :: m :: ms else m :: insertKey n ms

/-- The ascending list of distinct line numbers among the winners. -/
def lineKeys (ws : List UpdateExt) : List Nat :=
  ws.foldl (fun ks u => insertKey u.line ks) []

/-- `while (lines.size() <= line_num) lines.emplace_back("")` from
crdt.cpp line 121. -/
def extendTo (ls : List Str) (n : Nat) : List Str :=
  ls ++ List.replicate (n + 1 - ls.length) []

/-- The offset-tracking application loop of crdt.cpp lines 130-151: each
operation's columns are shifted by the running offset, clamped to the
current line, and the clamped range is replaced by `new_text`; the offset
then absorbs the length difference. -/
def applyOpsGo : Str → Int → List UpdateExt → Str
  | cur, _, [] => cur
  | cur, offset, u :: us =>
    let acs : Int := max 0 (u.cs + offset)
    let ace : Int := min (u.ce + offset) ((cur.length : Int) - 1)
    let newLine : Str :=
      cur.take acs.toNat ++ u.new_text ++
        (if 0 ≤ ace ∧ ace + 1 < (cur.length : Int) then cur.drop (ace + 1).toNat else [])
    applyOpsGo newLine (offset + (u.new_text.length : Int) - (ace - acs + 1)) us

/-- Steps 4-5 of `do_merge_apply` (crdt.cpp lines 113-154): group the
winners by line, and for each line in ascending order extend the document,
sort that line's winners, and run the offset-tracking applier. -/
def applyAllLines (lines : List Str) (winners : List UpdateExt) : List Str :=
  (lineKeys winners).foldl
    (fun ls n =>
      let ls2 := extendTo ls n
      let vec := sortOps (winners.filter fun u => u.line == n)
      ls2.set n (applyOpsGo (ls2.getD n []) 0 vec))
    lines

/-- `do_merge_apply` from crdt.cpp lines 55-158.  The C++ function mutates
`lines` and clears the two unmerged buffers; here the new document and the
boolean are returned (the caller-side clearing carries no information).
`self_uid` is received and immediately discarded, exactly as the C++ does
with `(void)self_uid`. -/
def do_merge_apply (lines : List Str) (local_unmerged recv_unmerged : List UpdateExt)
    (self_uid : Str) : List Str × Bool :=
  let _ := self_uid
  if local_unmerged = [] ∧ recv_unmerged = [] then (lines, false)
  else
    let all := local_unmerged ++ recv_unmerged
    let winners := resolveConflicts (chainCoalesce all)
    (applyAllLines lines winners, !winners.isEmpty)

/-- Trailing-empty-line normalization applied on read (editor.cpp line 116)
and before merge writeback (editor.cpp line 490). -/
def normalize (ls : List Str) : List Str :=
  ((ls.reverse).dropWhile fun l => l.isEmpty).reverse

/-- `UserEntry` from registry.h.  The C++ stores `active` as an `int`
driven only between 0 and 1; `user_id` and `queue_name` are NUL-terminated
buffers, modelled as strings (the `snprintf` byte-bound truncation is not
modelled: registration logic never depends on it). -/
structure UserEntry where
  active : Bool
  user_id : Str
  queue_name : Str
deriving DecidableEq, Repr

/-- First loop of `registry_register` (registry.cpp lines 51-58): scan for
an active slot with the same `user_id`; on a hit overwrite only its
`queue_name` and report the slot index. -/
def regFindActive (uid qname : Str) : List UserEntry → Option (List UserEntry × Nat)
  | [] => none
  | e :: es =>
    if e.active = true ∧ e.user_id = uid then
      some ({ e with queue_name := qname } :: es, 0)
    else
      match regFindActive uid qname es with
      | some (es', i) => some (e :: es', i + 1)
      | none => none

/-- Second loop of `registry_register` (registry.cpp lines 60-69): claim
the first free slot (the CAS `0 → 1` on `active`, which in this sequential
model is a plain test-and-set) and write `user_id` and `queue_name`. -/
def regClaimFree (uid qname : Str) : List UserEntry → Option (List UserEntry × Nat)
  | [] => none
  | e :: es =>
    if e.active = false then
      some (⟨true, uid, qname⟩ :: es, 0)
    else
      match regClaimFree uid qname es with
      | some (es', i) => some (e :: es', i + 1)
      | none => none

/-- `registry_register` from registry.cpp lines 48-71.  Returns the updated
slot array and `some slot` on success, `none` for the `-4` "no slots"
failure (`RegistryFull`). -/
def registry_register (users : List UserEntry) (uid qname : Str) :
    List UserEntry × Option Nat :=
  match regFindActive uid qname users with
  | some (us, i) => (us, some i)
  | none =>
    match regClaimFree uid qname users with
    | some (us, j) => (us, some j)
    | none => (users, none)

/-- Capacity of the receive ring (editor.cpp line 61:
`RingBuffer<UpdateMessage, 128>`). -/
def CAP : Nat := 128

/-- The SPSC ring buffer of editor.cpp lines 39-59.  `data` is the
fixed-size backing array (length `CAP` in every reachable state). -/
structure RingBuffer (α : Type) where
  head : Nat
  tail : Nat
  data : List α

/-- `RingBuffer::push` (editor.cpp lines 44-51): fails when advancing
`head` would collide with `tail`, otherwise stores at `head` and
publishes the advanced index. -/
def RingBuffer.push {α : Type} (r : RingBuffer α) (v : α) : RingBuffer α × Bool :=
  let n := (r.head + 1) % CAP
  if n = r.tail then (r, false)
  else ({ head := n, tail := r.tail, data := r.data.set r.head v }, true)

/-- `RingBuffer::pop` (editor.cpp lines 52-58): fails when empty
(`tail == head`), otherwise reads at `tail` and advances it. -/
def RingBuffer.pop {α : Type} (r : RingBuffer α) : RingBuffer α × Option α :=
  if r.tail = r.head then (r, none)
  else ({ r with tail := (r.tail + 1) % CAP }, r.data[r.tail]?)

/-- Number of elements currently held:
`(CAP + head - tail) % CAP` for in-range indices. -/
def ringCount {α : Type} (r : RingBuffer α) : Nat :=
  (CAP + r.head - r.tail) % CAP

/-- A producer/consumer event in the sequential (linearized) model of the
single-producer single-consumer discipline. -/
inductive RingOp (α : Type) where
  | push (v : α)
  | pop

/-- Run a sequence of events, accumulating the successfully pushed values
and the popped values in order. -/
def runRingFrom {α : Type} (r : RingBuffer α) (pushed popped : List α) :
    List (RingOp α) → RingBuffer α × List α × List α
  | [] => (r, pushed, popped)
  | RingOp.push v :: ops =>
    let p := r.push v
    runRingFrom p.1 (pushed ++ if p.2 then [v] else []) popped ops
  | RingOp.pop :: ops =>
    let p := r.pop
    runRingFrom p.1 pushed (popped ++ p.2.toList) ops

/-- The initial ring: zero indices over a default-initialized backing
array, as for the static `g_recv_buf`. -/
def ringInit {α : Type} [Inhabited α] : RingBuffer α :=
  ⟨0, 0, List.replicate CAP default⟩

/-- Run a sequence of events from the initial ring. -/
def runRing {α : Type} [Inhabited α] (ops : List (RingOp α)) :
    RingBuffer α × List α × List α :=
  runRingFrom ringInit [] [] ops

/-- `UpdateMessage` from message.h: the wire-form operation record.  The
fixed `char` buffers are modelled as strings/`Str`. -/
structure UpdateMessage where
  sender : Str
  timestamp_ns : Nat
  line : Nat
  col_start : Int
  col_end : Int
  op : OpType
  old_text : Str
  new_text : Str
deriving DecidableEq, Repr

/-- The `to_ext` lambda of editor.cpp lines 301-312: wire form to merge
form; note `uid` is taken from the message's `sender`. -/
def to_ext (m : UpdateMessage) : UpdateExt :=
  { ts := m.timestamp_ns, uid := m.sender, line := m.line, cs := m.col_start,
    ce := m.col_end, op := m.op, old_text := m.old_text, new_text := m.new_text }

/-- One drain pass of the editor loop (editor.cpp lines 345-354 and
518-525): pop every message, skip those whose sender equals the local user
id (`strncmp == 0`), append the rest to `recv_unmerged`.  `msgs` is the
sequence of messages the ring delivered.  (The display-tracking side
effects on `g_last_sender` carry no state relevant here.) -/
def drainRecv (self : Str) (msgs : List UpdateMessage) (recv : List UpdateExt) :
    List UpdateExt :=
  msgs.foldl (fun acc m => if m.sender = self then acc else acc ++ [to_ext m]) recv

/-- `Change` from editor.cpp lines 120-129: a synthesized local edit. -/
structure Change where
  line : Nat
  col_start : Int
  col_end : Int
  old_text : Str
  new_text : Str
  type : String
deriving DecidableEq, Repr

/-- Length of the common first segment of two strings (the `cs` while loop
of editor.cpp lines 393-395). -/
def commonSpanLen : Str → Str → Nat
  | a :: as, b :: bs => if a = b then commonSpanLen as bs + 1 else 0
  | _, _ => 0

/-- Per-line minimal-span diff of editor.cpp lines 385-432: common head
`cs`, common tail bounded by the remainders, middle segments, no-op skip,
operation classification, and the inclusive `col_end` that is `cs` for a
pure insertion and `cs + len(old_seg) - 1` otherwise. -/
def diffLine (i : Nat) (oldL newL : Str) : Option Change :=
  if oldL = newL then none
  else
    let cs := commonSpanLen oldL newL
    let tl := commonSpanLen ((oldL.drop cs).reverse) ((newL.drop cs).reverse)
    let old_seg := (oldL.drop cs).take (oldL.length - cs - tl)
    let new_seg := (newL.drop cs).take (newL.length - cs - tl)
    if old_seg = new_seg then none
    else
      some
        { line := i, col_start := (cs : Int),
          col_end := if old_seg = [] then (cs : Int) else (cs : Int) + old_seg.length - 1,
          old_text := old_seg, new_text := new_seg,
          type :=
            if old_seg = [] ∧ new_seg ≠ [] then "insert"
            else if old_seg ≠ [] ∧ new_seg = [] then "delete"
            else "replace" }

/-- The change-detection pipeline of editor.cpp lines 384-470: per-line
diffs over the common index range, then whole-line insertions for trailing
new lines (skipping empty ones), then whole-line deletions for trailing
removed lines (skipping empty ones). -/
def synthesizeChanges (prev next : List Str) : List Change :=
  let common := min prev.length next.length
  ((List.range common).filterMap fun i => diffLine i (prev.getD i []) (next.getD i [])) ++
    ((List.range' prev.length (next.length - prev.length)).filterMap fun i =>
      if (next.getD i []) = [] then none
      else some ⟨i, 0, 0, [], next.getD i [], "insert"⟩) ++
    ((List.range' next.length (prev.length - next.length)).filterMap fun i =>
      if (prev.getD i []) = [] then none
      else some ⟨i, 0, ((prev.getD i []).length : Int) - 1, prev.getD i [], [], "delete"⟩)

/-! ## Theorems -/

/-- C10: `overlaps` is symmetric — conflict detection gives the same
verdict regardless of the order in which the two operations are compared. -/
theorem overlaps_symm (a b : UpdateExt) : overlaps a b = overlaps b a := by
  unfold overlaps
  by_cases h1 : a.line = b.line
  · by_cases h2 : a.old_text = [] ∧ b.old_text = [] ∧ a.cs = b.cs
    · simp [h1, h2.1, h2.2.1, h2.2.2]
    · have h2' : ¬(b.old_text = [] ∧ a.old_text = [] ∧ b.cs = a.cs) := fun hc =>
        h2 ⟨hc.2.1, hc.1, hc.2.2.symm⟩
      simp only [h1, ne_eq, not_true_eq_false, if_false, if_neg h2, if_neg h2']
      exact decide_eq_decide.mpr (by tauto)
  · have h1' : b.line ≠ a.line := fun hc => h1 hc.symm
    simp [h1, h1']

/-- C3: a stale operation — `old_text` "xx" does not match the segment
"he" of "hello" at column 0 — is nonetheless applied by the merge applier,
changing the line to "ABllo"; the documented stale-drop check is absent
from the shipped code. -/
theorem stale_update_is_applied :
    (let cur : Str := "hello".toList
     let u : UpdateExt :=
       { ts := 1, uid := "z".toList, line := 0, cs := 0, ce := 1, op := .Replace,
         old_text := "xx".toList, new_text := "AB".toList }
     ((cur.drop u.cs.toNat).take u.old_text.length ≠ u.old_text) ∧
       apply_update_to_line cur u = "ABllo".toList ∧
       apply_update_to_line cur u ≠ cur) := by
  decide

/-- C5: an operation authored by the merging peer itself whose effect is
already present in the baseline (the segment of length `len(new_text)` at
`col_start` already equals `new_text`) is re-applied by the merge,
changing "aQQ" to "aQQQ"; `do_merge_apply` never inspects `self_uid` or
the current segment. -/
theorem self_op_reapplied :
    (let baseline : List Str := [['a', 'Q', 'Q']]
     let u : UpdateExt :=
       { ts := 3, uid := "u1".toList, line := 0, cs := 1, ce := 1, op := .Replace,
         old_text := ['b'], new_text := ['Q', 'Q'] }
     (((baseline.getD 0 []).drop u.cs.toNat).take u.new_text.length = u.new_text) ∧
       do_merge_apply baseline [u] [] "u1".toList = ([['a', 'Q', 'Q', 'Q']], true)) := by
  decide

/-- C8 counterexample: inserting "X" into "ab" at column 1 synthesizes a
pure-insertion record with `col_end = col_start` (both 1), not
`col_start - 1` as the spec's formula would demand. -/
theorem insert_change_col_end_eq_col_start :
    (let c : Change :=
       { line := 0, col_start := 1, col_end := 1, old_text := [],
         new_text := ['X'], type := "insert" }
     synthesizeChanges [['a', 'b']] [['a', 'X', 'b']] = [c] ∧
       c.old_text = [] ∧ c.col_end = c.col_start ∧ c.col_end ≠ c.col_start - 1) := by
  decide

/-- C8 (amended): every record synthesized by the change-detection
pipeline satisfies `col_end = col_start + len(old_text) - 1` when
`old_text` is non-empty, and `col_end = col_start` for a pure insertion. -/
theorem synthesized_col_end (prev next : List Str) :
    ∀ c ∈ synthesizeChanges prev next,
      (c.old_text ≠ [] → c.col_end = c.col_start + (c.old_text.length : Int) - 1) ∧
      (c.old_text = [] → c.col_end = c.col_start) := by
  intro c hc
  unfold synthesizeChanges at hc
  rcases List.mem_append.mp hc with hc' | h3
  · rcases List.mem_append.mp hc' with h1 | h2
    · obtain ⟨i, _, heq⟩ := List.mem_filterMap.mp h1
      unfold diffLine at heq
      split at heq
      · exact absurd heq (by simp)
      · dsimp only at heq
        split at heq
        · exact absurd heq (by simp)
        · obtain rfl := Option.some_inj.mp heq
          refine ⟨fun hne => ?_, fun he => ?_⟩
          · simp only [ne_eq] at hne
            simp only at hne ⊢
            rw [if_neg hne]
          · simp only at he ⊢
            rw [if_pos he]
    · obtain ⟨i, _, heq⟩ := List.mem_filterMap.mp h2
      split at heq
      · exact absurd heq (by simp)
      · obtain rfl := Option.some_inj.mp heq
        exact ⟨fun hne => absurd rfl hne, fun _ => rfl⟩
  · obtain ⟨i, _, heq⟩ := List.mem_filterMap.mp h3
    split at heq
    · exact absurd heq (by simp)
    · rename_i hne
      obtain rfl := Option.some_inj.mp heq
      refine ⟨fun _ => ?_, fun he => absurd he hne⟩
      simp

/-- C8 witness: the amended formula evaluated on the whole-line deletion
synthesized when "a" disappears. -/
theorem synthesized_col_end_witness :
    (let c : Change := ⟨0, 0, 0, ['a'], [], "delete"⟩
     c.col_end = c.col_start + (c.old_text.length : Int) - 1) := by
  exact (synthesized_col_end [['a']] [[]] ⟨0, 0, 0, ['a'], [], "delete"⟩ (by decide)).1
    (by decide)

/-- Resolution of a two-element conflict: with both operations live
(neither tombstoned) and overlapping, exactly the `newer_wins` winner
survives. -/
theorem resolveConflicts_pair (a b : UpdateExt) (hov : overlaps a b = true)
    (ha : a.old_text ≠ MERGED) (hb : b.old_text ≠ MERGED) :
    resolveConflicts [a, b] = if newer_wins a b then [a] else [b] := by
  by_cases hw : newer_wins a b
  · simp [resolveConflicts, resolveOuter_cons, resolveInner, resolveOuter,
      resolveOuterGo, ha, hb, hov, hw]
  · simp [resolveConflicts, resolveOuter_cons, resolveInner, resolveOuter,
      resolveOuterGo, ha, hb, hov, hw]

/-- C2: when two live operations overlap, the conflict-resolution step
keeps exactly one of them: with equal timestamps and distinct user ids the
one with the lexicographically smaller uid, and with unequal timestamps
the one with the strictly larger timestamp. -/
theorem lww_tiebreak (a b : UpdateExt) (hov : overlaps a b = true)
    (ha : a.old_text ≠ MERGED) (hb : b.old_text ≠ MERGED) :
    (a.ts = b.ts → a.uid ≠ b.uid →
      resolveConflicts [a, b] = [if strLt a.uid b.uid then a else b]) ∧
    (a.ts ≠ b.ts → resolveConflicts [a, b] = [if b.ts < a.ts then a else b]) := by
  have hp := resolveConflicts_pair a b hov ha hb
  constructor
  · intro hts _
    rw [hp]
    unfold newer_wins
    simp only [hts, ne_eq, not_true_eq_false, if_false]
    by_cases hu : strLt a.uid b.uid <;> simp [hu]
  · intro hts
    rw [hp]
    unfold newer_wins
    simp only [hts, ne_eq, not_false_eq_true, if_true]
    by_cases ht : b.ts < a.ts <;> simp [ht]

/-- C2 witness: equal timestamps, overlapping column ranges — the
operation of "user_1" (lexicographically smaller than "user_2") survives. -/
theorem lww_tiebreak_witness :
    (let a : UpdateExt :=
       { ts := 5, uid := "user_1".toList, line := 0, cs := 0, ce := 1, op := .Replace,
         old_text := ['a', 'b'], new_text := ['x'] }
     let b : UpdateExt :=
       { ts := 5, uid := "user_2".toList, line := 0, cs := 1, ce := 2, op := .Replace,
         old_text := ['b', 'c'], new_text := ['y'] }
     resolveConflicts [a, b] = [if strLt a.uid b.uid then a else b]) := by
  exact (lww_tiebreak _ _ (by decide) (by decide) (by decide)).1 rfl (by decide)

/-- C9: a drain pass appends to `recv_unmerged` exactly the non-self
messages, converted by `to_ext`, in arrival order; hence every entry of
the drained buffer either was already there or carries a `uid` different
from the local user id. -/
theorem drain_filters_self (self : Str) (msgs : List UpdateMessage)
    (recv : List UpdateExt) :
    drainRecv self msgs recv =
      recv ++ (msgs.filter fun m => !(m.sender == self)).map to_ext ∧
    ∀ e ∈ drainRecv self msgs recv, e ∈ recv ∨ e.uid ≠ self := by
  have heq : ∀ (ms : List UpdateMessage) (acc : List UpdateExt),
      drainRecv self ms acc = acc ++ (ms.filter fun m => !(m.sender == self)).map to_ext := by
    intro ms
    induction ms with
    | nil => intro acc; simp [drainRecv]
    | cons m ms ih =>
      intro acc
      have step : drainRecv self (m :: ms) acc =
          drainRecv self ms (if m.sender = self then acc else acc ++ [to_ext m]) := rfl
      by_cases h : m.sender = self
      · rw [step, if_pos h, ih]
        simp [h]
      · rw [step, if_neg h, ih]
        simp [h]
  refine ⟨heq msgs recv, ?_⟩
  intro e he
  rw [heq msgs recv] at he
  rcases List.mem_append.mp he with hl | hr
  · exact Or.inl hl
  · obtain ⟨m, hm, rfl⟩ := List.mem_map.mp hr
    have := List.of_mem_filter hm
    simp only [Bool.not_eq_true', beq_eq_false_iff_ne, ne_eq] at this
    exact Or.inr this

/-- C9 witness: a message from "v" survives the drain of a peer "u" and
indeed carries a non-self uid. -/
theorem drain_filters_self_witness :
    (let m2 : UpdateMessage := ⟨"v".toList, 2, 0, 0, 0, .Insert, [], ['b']⟩
     to_ext m2 ∈ ([] : List UpdateExt) ∨ (to_ext m2).uid ≠ "u".toList) := by
  exact (drain_filters_self "u".toList [⟨"u".toList, 1, 0, 0, 0, .Insert, [], ['a']⟩,
    ⟨"v".toList, 2, 0, 0, 0, .Insert, [], ['b']⟩] []).2 _ (by decide)

/-- C1 counterexample: two overlapping operations with the same timestamp
and the same author form the same multiset in either order, yet merging
them in the two orders from the same baseline produces different
normalized documents ("Yb" versus "Xb"). -/
theorem merge_not_permutation_invariant :
    (let opA : UpdateExt :=
       { ts := 1, uid := "u".toList, line := 0, cs := 0, ce := 0, op := .Replace,
         old_text := ['a'], new_text := ['X'] }
     let opB : UpdateExt :=
       { ts := 1, uid := "u".toList, line := 0, cs := 0, ce := 0, op := .Replace,
         old_text := ['a'], new_text := ['Y'] }
     Multiset.ofList ([opA, opB] ++ []) = Multiset.ofList ([opB, opA] ++ []) ∧
       normalize (do_merge_apply [['a', 'b']] [opA, opB] [] "u".toList).1 ≠
         normalize (do_merge_apply [['a', 'b']] [opB, opA] [] "u".toList).1) := by
  refine ⟨?_, by decide⟩
  exact Quotient.sound (List.Perm.swap _ _ _)

/-- C1 (amended): the merge result is a deterministic function of the
baseline and the concatenation `local ++ recv`: any two splits of the same
operation sequence (and any `self_uid` values) produce identical results.
Order of the concatenation matters; the multiset alone does not determine
the outcome. -/
theorem merge_split_invariant (lines : List Str) (l1 r1 l2 r2 : List UpdateExt)
    (s1 s2 : Str) (h : l1 ++ r1 = l2 ++ r2) :
    do_merge_apply lines l1 r1 s1 = do_merge_apply lines l2 r2 s2 := by
  by_cases hcase : l2 = [] ∧ r2 = []
  · have hnil : l1 ++ r1 = [] := by rw [h, hcase.1, hcase.2]; rfl
    have hcase1 : l1 = [] ∧ r1 = [] := List.append_eq_nil.mp hnil
    simp [do_merge_apply, hcase, hcase1]
  · have hcase1 : ¬(l1 = [] ∧ r1 = []) := by
      intro hc
      exact hcase (List.append_eq_nil.mp (by rw [← h, hc.1, hc.2]; rfl))
    simp [do_merge_apply, hcase, hcase1, h]

/-- C1 witness: the same single operation merged as local-unmerged or as
received-unmerged gives the same document. -/
theorem merge_split_invariant_witness :
    do_merge_apply [['a']]
        [⟨1, "u".toList, 0, 0, 0, .Replace, ['a'], ['b']⟩] [] "x".toList =
      do_merge_apply [['a']]
        [] [⟨1, "u".toList, 0, 0, 0, .Replace, ['a'], ['b']⟩] "y".toList :=
  merge_split_invariant [['a']] _ _ _ _ "x".toList "y".toList rfl

/-- C4 counterexample: a two-element chain (same line, author and column,
`new_text` of the first equal to `old_text` of the second) whose
operations sit past the end of the baseline line "ab": the merge appends,
producing "abcd", while directly applying the coalesced single operation
(old_text of the first, new_text of the last) with the single-operation
applier leaves "ab" unchanged, because its clamped range is empty. -/
theorem chain_direct_apply_differs :
    (let o1 : UpdateExt :=
       { ts := 1, uid := "u".toList, line := 0, cs := 2, ce := 2, op := .Insert,
         old_text := [], new_text := ['c'] }
     let o2 : UpdateExt :=
       { ts := 2, uid := "u".toList, line := 0, cs := 2, ce := 2, op := .Replace,
         old_text := ['c'], new_text := ['c', 'd'] }
     o1.line = o2.line ∧ o1.uid = o2.uid ∧ o1.cs = o2.cs ∧
       o1.new_text = o2.old_text ∧
       (do_merge_apply [['a', 'b']] [o1, o2] [] "u".toList).1 = [['a', 'b', 'c', 'd']] ∧
       apply_update_to_line ['a', 'b'] { o1 with new_text := o2.new_text } = ['a', 'b'] ∧
       (['a', 'b', 'c', 'd'] : Str) ≠ ['a', 'b']) := by
  decide

/-- Adjacency of a coalescible chain (the per-pair condition of crdt.cpp
lines 73-76): same line, same author, same start column, and the earlier
operation's `new_text` equal to the later one's `old_text`. -/
def chainAdj (a b : UpdateExt) : Prop :=
  a.line = b.line ∧ a.uid = b.uid ∧ a.cs = b.cs ∧ a.new_text = b.old_text

instance (a b : UpdateExt) : Decidable (chainAdj a b) :=
  inferInstanceAs
    (Decidable (a.line = b.line ∧ a.uid = b.uid ∧ a.cs = b.cs ∧ a.new_text = b.old_text))

/-- The tombstoning write `all[j].old_text = "###MERGED###"` of crdt.cpp
line 81. -/
def markMerged (b : UpdateExt) : UpdateExt :=
  { b with old_text := MERGED }

/-- On a coalescible chain the inner scan absorbs every later element into
the head (leaving the head's `old_text`, taking the last element's
`new_text` and `ts`) and tombstones the rest. -/
theorem chainInner_chain (rest : List UpdateExt) :
    ∀ o : UpdateExt, List.Chain' chainAdj (o :: rest) →
      chainInner o rest =
        ({ o with new_text := (rest.getLastD o).new_text,
                  ts := (rest.getLastD o).ts },
         rest.map markMerged) := by
  induction rest with
  | nil => intro o _; rfl
  | cons b bs ih =>
    intro o hchain
    have hadj : chainAdj o b := (List.chain'_cons.mp hchain).1
    have htail : List.Chain' chainAdj (b :: bs) := (List.chain'_cons.mp hchain).2
    have hcond : o.line = b.line ∧ o.uid = b.uid ∧ o.new_text = b.old_text ∧
        o.cs = b.cs := ⟨hadj.1, hadj.2.1, hadj.2.2.2, hadj.2.2.1⟩
    have hchain2 :
        List.Chain' chainAdj ({ o with new_text := b.new_text, ts := b.ts } :: bs) := by
      cases bs with
      | nil => exact List.chain'_singleton _
      | cons c cs =>
        have hbc : chainAdj b c := (List.chain'_cons.mp htail).1
        exact List.chain'_cons.mpr
          ⟨⟨hadj.1.trans hbc.1, hadj.2.1.trans hbc.2.1,
            hadj.2.2.1.trans hbc.2.2.1, hbc.2.2.2⟩,
           (List.chain'_cons.mp htail).2⟩
    unfold chainInner
    rw [if_pos hcond]
    dsimp only
    rw [ih _ hchain2]
    cases bs <;> rfl

/-- The inner scan is the identity when the head's `new_text` matches no
later `old_text`. -/
theorem chainInner_nomatch (a : UpdateExt) (l : List UpdateExt)
    (h : ∀ b ∈ l, a.new_text ≠ b.old_text) : chainInner a l = (a, l) := by
  induction l with
  | nil => rfl
  | cons b bs ih =>
    have hne : ¬(a.line = b.line ∧ a.uid = b.uid ∧ a.new_text = b.old_text ∧
        a.cs = b.cs) := fun hc => h b (List.mem_cons_self b bs) hc.2.2.1
    unfold chainInner
    rw [if_neg hne]
    dsimp only
    rw [ih fun b' hb' => h b' (List.mem_cons_of_mem _ hb')]

/-- Chain coalescing is the identity on a vector of tombstoned entries
whose `new_text`s are not the sentinel. -/
theorem chainCoalesce_nomatch (l : List UpdateExt)
    (h : ∀ x ∈ l, x.old_text = MERGED ∧ x.new_text ≠ MERGED) :
    chainCoalesce l = l := by
  induction l with
  | nil => rfl
  | cons m ms ih =>
    rw [chainCoalesce_cons,
      chainInner_nomatch m ms fun b hb =>
        (h b (List.mem_cons_of_mem _ hb)).1 ▸ (h m (List.mem_cons_self m ms)).2]
    rw [ih fun x hx => h x (List.mem_cons_of_mem _ hx)]

/-- The inner resolution pass marks a run of tombstoned entries dead and
reports the head as surviving. -/
theorem resolveInner_marked (a : UpdateExt) (l : List UpdateExt)
    (h : ∀ x ∈ l, x.old_text = MERGED) :
    resolveInner a (l.map fun u => (u, true)) = (true, l.map fun u => (u, false)) := by
  induction l with
  | nil => rfl
  | cons b bs ih =>
    simp only [List.map_cons]
    unfold resolveInner
    rw [if_neg (by simp), if_pos (h b (List.mem_cons_self b bs))]
    dsimp only
    rw [ih fun x hx => h x (List.mem_cons_of_mem _ hx)]

/-- The outer resolution pass is the identity on a vector of dead
entries. -/
theorem resolveOuter_dead (l : List (UpdateExt × Bool))
    (h : ∀ p ∈ l, p.2 = false) : resolveOuter l = l := by
  induction l with
  | nil => rfl
  | cons p ps ih =>
    obtain ⟨b, aliveB⟩ := p
    have hb : aliveB = false := h (b, aliveB) (List.mem_cons_self _ _)
    rw [resolveOuter_cons, if_pos hb, hb,
      ih fun q hq => h q (List.mem_cons_of_mem _ hq)]

/-- Dead entries never survive the final filter. -/
theorem filter_snd_false (l : List UpdateExt) :
    ((l.map fun u => (u, false)).filter fun p => p.2) = [] := by
  induction l with
  | nil => rfl
  | cons b bs ih => simp [ih]

/-- Resolution of a live head against a run of tombstoned entries keeps
exactly the head. -/
theorem resolveConflicts_chain (c : UpdateExt) (l : List UpdateExt)
    (hc : c.old_text ≠ MERGED) (hl : ∀ x ∈ l, x.old_text = MERGED) :
    resolveConflicts (c :: l) = [c] := by
  unfold resolveConflicts
  rw [List.map_cons, resolveOuter_cons]
  rw [if_neg (by simp), if_neg hc, resolveInner_marked c l hl]
  dsimp only
  rw [resolveOuter_dead _ (by
    intro p hp
    obtain ⟨u, _, rfl⟩ := List.mem_map.mp hp
    rfl)]
  simp [filter_snd_false]

/-- `extendTo` is the identity when the line already exists. -/
theorem extendTo_of_lt (ls : List Str) (n : Nat) (h : n < ls.length) :
    extendTo ls n = ls := by
  unfold extendTo
  have h0 : n + 1 - ls.length = 0 := by omega
  rw [h0]
  simp

/-- Applying a single winner touches exactly its line. -/
theorem applyAllLines_single (lines : List Str) (u : UpdateExt)
    (h : u.line < lines.length) :
    applyAllLines lines [u] =
      lines.set u.line (applyOpsGo (lines.getD u.line []) 0 [u]) := by
  unfold applyAllLines lineKeys
  simp only [List.foldl_cons, List.foldl_nil, insertKey]
  rw [extendTo_of_lt lines u.line h]
  simp [sortOps, insertOp]

/-- The offset-tracking applier on a single operation agrees with
`apply_update_to_line` whenever the line is empty or the clamped range is
nonempty. -/
theorem apply_single_agree (cur : Str) (u : UpdateExt)
    (h : cur = [] ∨ max 0 u.cs ≤ min u.ce ((cur.length : Int) - 1)) :
    applyOpsGo cur 0 [u] = apply_update_to_line cur u := by
  by_cases h0 : cur = []
  · subst h0
    simp [applyOpsGo, apply_update_to_line]
  · rcases h with hnil | hle
    · exact absurd hnil h0
    · have hstop : ¬(max 0 u.cs > min u.ce ((cur.length : Int) - 1)) := not_lt.mpr hle
      unfold applyOpsGo applyOpsGo apply_update_to_line
      rw [if_neg h0]
      dsimp only
      rw [if_neg hstop]
      simp only [Int.add_zero]

/-- C4 (amended): merging a coalescible chain `o :: rest` (same line,
author and column; each `new_text` equal to the next `old_text`; no text
equal to the tombstone sentinel) against a baseline in which the head
operation's line exists and its clamped column range is nonempty — or the
line is empty — yields exactly the baseline with that line replaced by the
direct application of the single coalesced operation (the head with
`new_text` of the last element).  Out-of-range chains genuinely diverge
from the direct application (see the counterexample). -/
theorem chain_coalescing_commutes (lines : List Str) (self : Str)
    (o : UpdateExt) (rest : List UpdateExt)
    (hchain : List.Chain' chainAdj (o :: rest))
    (hsent : ∀ x ∈ o :: rest, x.old_text ≠ MERGED ∧ x.new_text ≠ MERGED)
    (hline : o.line < lines.length)
    (hrange : lines.getD o.line [] = [] ∨
      max 0 o.cs ≤ min o.ce (((lines.getD o.line []).length : Int) - 1)) :
    (do_merge_apply lines (o :: rest) [] self).1 =
      lines.set o.line
        (apply_update_to_line (lines.getD o.line [])
          { o with new_text := (rest.getLastD o).new_text }) := by
  have hne : ¬((o :: rest) = ([] : List UpdateExt) ∧ ([] : List UpdateExt) = []) := by
    simp
  unfold do_merge_apply
  dsimp only
  rw [if_neg hne]
  dsimp only
  rw [List.append_nil, chainCoalesce_cons, chainInner_chain rest o hchain]
  dsimp only
  rw [chainCoalesce_nomatch _ (by
    intro x hx
    obtain ⟨b, hb, rfl⟩ := List.mem_map.mp hx
    exact ⟨rfl, (hsent b (List.mem_cons_of_mem _ hb)).2⟩)]
  rw [resolveConflicts_chain]
  · rw [applyAllLines_single]
    · rw [apply_single_agree]
      · rfl
      · exact hrange
    · exact hline
  · exact (hsent o (List.mem_cons_self o rest)).1
  · intro x hx
    obtain ⟨b, _, rfl⟩ := List.mem_map.mp hx
    rfl

/-- C4 amended witness: the in-range chain "a"→"Z"→"ZW" at column 0 of
"abx"; the merge and the direct application of the coalesced operation
agree. -/
theorem chain_coalescing_commutes_witness :
    (do_merge_apply [['a', 'b', 'x']]
        [⟨1, "u".toList, 0, 0, 0, .Replace, ['a'], ['Z']⟩,
         ⟨2, "u".toList, 0, 0, 0, .Replace, ['Z'], ['Z', 'W']⟩] [] "u".toList).1 =
      [['a', 'b', 'x']].set 0
        (apply_update_to_line ['a', 'b', 'x']
          { (⟨1, "u".toList, 0, 0, 0, .Replace, ['a'], ['Z']⟩ : UpdateExt) with
              new_text :=
                (([⟨2, "u".toList, 0, 0, 0, .Replace, ['Z'], ['Z', 'W']⟩] :
                    List UpdateExt).getLastD
                  ⟨1, "u".toList, 0, 0, 0, .Replace, ['a'], ['Z']⟩).new_text }) := by
  exact chain_coalescing_commutes [['a', 'b', 'x']] "u".toList
    ⟨1, "u".toList, 0, 0, 0, .Replace, ['a'], ['Z']⟩
    [⟨2, "u".toList, 0, 0, 0, .Replace, ['Z'], ['Z', 'W']⟩]
    (List.chain'_cons.mpr ⟨by decide, List.chain'_singleton _⟩)
    (by decide) (by decide) (by decide)

/-- If the first scan's predicate (active with matching `user_id`) first
holds at index `i`, `regFindActive` rewrites exactly slot `i`'s queue name
and reports `i`. -/
theorem regFindActive_some (uid q : Str) (users : List UserEntry) :
    ∀ i e, (users.findIdx? fun s => s.active && s.user_id == uid) = some i →
      users[i]? = some e →
      regFindActive uid q users = some (users.set i { e with queue_name := q }, i) := by
  induction users with
  | nil => intro i e hf _; simp at hf
  | cons u us ih =>
    intro i e hf he
    rw [List.findIdx?_cons] at hf
    by_cases hp : (u.active && u.user_id == uid) = true
    · rw [if_pos hp, Option.some_inj] at hf
      subst hf
      simp only [List.getElem?_cons_zero, Option.some_inj] at he
      subst he
      have hc : u.active = true ∧ u.user_id = uid := by
        simp only [Bool.and_eq_true, beq_iff_eq] at hp
        exact hp
      simp [regFindActive, hc]
    · rw [if_neg hp, List.findIdx?_succ] at hf
      obtain ⟨i', hf', rfl⟩ := Option.map_eq_some'.mp hf
      simp only [List.getElem?_cons_succ] at he
      have hc : ¬(u.active = true ∧ u.user_id = uid) := by
        intro hc
        exact hp (by simp [hc.1, hc.2])
      simp [regFindActive, hc, ih i' e hf' he]

/-- The first scan fails exactly when no entry is active with the given
`user_id`. -/
theorem regFindActive_none_iff (uid q : Str) (users : List UserEntry) :
    regFindActive uid q users = none ↔
      ∀ e ∈ users, ¬(e.active = true ∧ e.user_id = uid) := by
  induction users with
  | nil => simp [regFindActive]
  | cons u us ih =>
    by_cases hc : u.active = true ∧ u.user_id = uid
    · simp [regFindActive, hc]
    · simp only [regFindActive, if_neg hc]
      cases hrec : regFindActive uid q us with
      | some r =>
        obtain ⟨es', i⟩ := r
        refine iff_of_false (by simp) ?_
        intro h
        have hnone := ih.mpr fun e he => h e (List.mem_cons_of_mem _ he)
        rw [hnone] at hrec
        exact absurd hrec (by simp)
      | none =>
        refine iff_of_true rfl fun e he => ?_
        rcases List.mem_cons.mp he with rfl | hmem
        · exact hc
        · exact ih.mp hrec e hmem

/-- If some slot is free and the first one is at index `j`, `regClaimFree`
claims exactly slot `j`. -/
theorem regClaimFree_some (uid q : Str) (users : List UserEntry) :
    ∀ j, (users.findIdx? fun s => !s.active) = some j →
      regClaimFree uid q users = some (users.set j ⟨true, uid, q⟩, j) := by
  induction users with
  | nil => intro j hf; simp at hf
  | cons u us ih =>
    intro j hf
    rw [List.findIdx?_cons] at hf
    by_cases hp : (!u.active) = true
    · rw [if_pos hp, Option.some_inj] at hf
      subst hf
      have hc : u.active = false := by simpa using hp
      simp [regClaimFree, hc]
    · rw [if_neg hp, List.findIdx?_succ] at hf
      obtain ⟨j', hf', rfl⟩ := Option.map_eq_some'.mp hf
      have hc : ¬u.active = false := by simpa using hp
      simp [regClaimFree, hc, ih j' hf']

/-- The free-slot scan fails exactly when every slot is active. -/
theorem regClaimFree_none_iff (uid q : Str) (users : List UserEntry) :
    regClaimFree uid q users = none ↔ ∀ e ∈ users, e.active = true := by
  induction users with
  | nil => simp [regClaimFree]
  | cons u us ih =>
    by_cases hc : u.active = false
    · simp [regClaimFree, hc]
    · have hc' : u.active = true := by simpa using hc
      simp only [regClaimFree, if_neg hc]
      cases hrec : regClaimFree uid q us with
      | some r =>
        obtain ⟨es', j⟩ := r
        refine iff_of_false (by simp) ?_
        intro h
        have hnone := ih.mpr fun e he => h e (List.mem_cons_of_mem _ he)
        rw [hnone] at hrec
        exact absurd hrec (by simp)
      | none =>
        refine iff_of_true rfl fun e he => ?_
        rcases List.mem_cons.mp he with rfl | hmem
        · exact hc'
        · exact ih.mp hrec e hmem

/-- C6: `registry_register` semantics — an already-active slot with the
same `user_id` is reused (only its queue name overwritten); otherwise the
first free slot is claimed and filled; and registration fails
(`RegistryFull`, the C++ return `-4`) exactly when no active slot matches
and no slot is free. -/
theorem registry_register_spec (users : List UserEntry) (uid q : Str) :
    (∀ i e, (users.findIdx? fun s => s.active && s.user_id == uid) = some i →
      users[i]? = some e →
      registry_register users uid q = (users.set i { e with queue_name := q }, some i)) ∧
    (regFindActive uid q users = none →
      ∀ j, (users.findIdx? fun s => !s.active) = some j →
        registry_register users uid q = (users.set j ⟨true, uid, q⟩, some j)) ∧
    ((registry_register users uid q).2 = none ↔
      (∀ e ∈ users, ¬(e.active = true ∧ e.user_id = uid)) ∧
        (∀ e ∈ users, e.active = true)) := by
  refine ⟨?_, ?_, ?_⟩
  · intro i e hf he
    unfold registry_register
    rw [regFindActive_some uid q users i e hf he]
  · intro hnone j hf
    unfold registry_register
    rw [hnone, regClaimFree_some uid q users j hf]
  · cases hfa : regFindActive uid q users with
    | some r =>
      obtain ⟨us', i⟩ := r
      simp only [registry_register, hfa]
      refine iff_of_false (by simp) ?_
      intro h
      have hnone := (regFindActive_none_iff uid q users).mpr h.1
      rw [hnone] at hfa
      exact absurd hfa (by simp)
    | none =>
      cases hcf : regClaimFree uid q users with
      | some r =>
        obtain ⟨us', j⟩ := r
        simp only [registry_register, hfa, hcf]
        refine iff_of_false (by simp) ?_
        intro h
        have hnone := (regClaimFree_none_iff uid q users).mpr h.2
        rw [hnone] at hcf
        exact absurd hcf (by simp)
      | none =>
        simp only [registry_register, hfa, hcf]
        constructor
        · intro _
          exact ⟨(regFindActive_none_iff uid q users).mp hfa,
                 (regClaimFree_none_iff uid q users).mp hcf⟩
        · intro _
          trivial

/-- Reduction of `x % CAP` for `x < 2 * CAP`, the only range arising from
index arithmetic on in-range head/tail values. -/
theorem mod_cap_two_cases (x : Nat) (hx : x < 2 * CAP) :
    x % CAP = if x < CAP then x else x - CAP := by
  by_cases h : x < CAP
  · rw [if_pos h, Nat.mod_eq_of_lt h]
  · rw [if_neg h]
    have h2 : x = CAP + (x - CAP) := by omega
    calc x % CAP = (CAP + (x - CAP)) % CAP := by rw [← h2]
      _ = (x - CAP) % CAP := Nat.add_mod_left CAP (x - CAP)
      _ = x - CAP := Nat.mod_eq_of_lt (by simp only [CAP] at *; omega)

/-- Closed form of the element count `(CAP + head - tail) % CAP`. -/
theorem ringCount_eq (hd t : Nat) (hh : hd < CAP) (ht : t < CAP) :
    (CAP + hd - t) % CAP = if t ≤ hd then hd - t else CAP + hd - t := by
  have hx : CAP + hd - t < 2 * CAP := by simp only [CAP] at *; omega
  rw [mod_cap_two_cases _ hx]
  split_ifs <;> (simp only [CAP] at *; try omega)

/-- Closed form of the advanced index `(i + 1) % CAP`. -/
theorem succ_mod_cap (i : Nat) (hi : i < CAP) :
    (i + 1) % CAP = if i + 1 = CAP then 0 else i + 1 := by
  by_cases hq : i + 1 = CAP
  · rw [if_pos hq, hq, Nat.mod_self]
  · rw [if_neg hq, Nat.mod_eq_of_lt (by simp only [CAP] at *; omega)]

/-- The slot `tail + count` (mod `CAP`) is exactly `head`. -/
theorem tail_add_count (hd t : Nat) (hh : hd < CAP) (ht : t < CAP) :
    (t + (CAP + hd - t) % CAP) % CAP = hd := by
  rw [ringCount_eq hd t hh ht]
  by_cases hle : t ≤ hd
  · rw [if_pos hle]
    have h1 : t + (hd - t) = hd := by omega
    rw [h1, Nat.mod_eq_of_lt hh]
  · rw [if_neg hle]
    have h1 : t + (CAP + hd - t) = CAP + hd := by simp only [CAP] at *; omega
    rw [h1, Nat.add_mod_left, Nat.mod_eq_of_lt hh]

/-- Slots strictly before `tail + count` (mod `CAP`) differ from `head`. -/
theorem tail_add_lt_ne (hd t i : Nat) (hh : hd < CAP) (ht : t < CAP)
    (hi : i < (CAP + hd - t) % CAP) : (t + i) % CAP ≠ hd := by
  rw [ringCount_eq hd t hh ht] at hi
  have hx : t + i < 2 * CAP := by
    split_ifs at hi <;> (simp only [CAP] at *; try omega)
  rw [mod_cap_two_cases _ hx]
  split_ifs at hi ⊢ <;> (simp only [CAP] at *; try omega)

/-- The push full-test `(head + 1) % CAP == tail` holds exactly when the
ring holds `CAP - 1` elements. -/
theorem push_fail_iff (hd t : Nat) (hh : hd < CAP) (ht : t < CAP) :
    (hd + 1) % CAP = t ↔ (CAP + hd - t) % CAP = CAP - 1 := by
  rw [succ_mod_cap hd hh, ringCount_eq hd t hh ht]
  split_ifs <;> (simp only [CAP] at *; try omega)

/-- A successful push increments the element count. -/
theorem count_push (hd t : Nat) (hh : hd < CAP) (ht : t < CAP)
    (hne : (hd + 1) % CAP ≠ t) :
    (CAP + (hd + 1) % CAP - t) % CAP = (CAP + hd - t) % CAP + 1 := by
  rw [succ_mod_cap hd hh] at hne ⊢
  rw [ringCount_eq hd t hh ht]
  by_cases hq : hd + 1 = CAP
  · rw [if_pos hq] at hne ⊢
    rw [mod_cap_two_cases _ (by simp only [CAP] at *; omega)]
    split_ifs <;> (simp only [CAP] at *; try omega)
  · rw [if_neg hq] at hne ⊢
    rw [ringCount_eq (hd + 1) t (by simp only [CAP] at *; omega) ht]
    split_ifs <;> (simp only [CAP] at *; try omega)

/-- A successful pop decrements the element count. -/
theorem count_pop (hd t : Nat) (hh : hd < CAP) (ht : t < CAP) (hne : t ≠ hd) :
    (CAP + hd - (t + 1) % CAP) % CAP + 1 = (CAP + hd - t) % CAP := by
  rw [succ_mod_cap t ht, ringCount_eq hd t hh ht]
  by_cases hq : t + 1 = CAP
  · rw [if_pos hq]
    rw [ringCount_eq hd 0 hh (by simp only [CAP]; omega)]
    split_ifs <;> (simp only [CAP] at *; try omega)
  · rw [if_neg hq]
    rw [ringCount_eq hd (t + 1) hh (by simp only [CAP] at *; omega)]
    split_ifs <;> (simp only [CAP] at *; try omega)

/-- The ring is empty exactly when `tail = head`. -/
theorem count_zero_iff (hd t : Nat) (hh : hd < CAP) (ht : t < CAP) :
    (CAP + hd - t) % CAP = 0 ↔ t = hd := by
  rw [ringCount_eq hd t hh ht]
  split_ifs <;> (simp only [CAP] at *; try omega)

/-- Invariant tying a reachable ring state to the histories of accepted
pushes and completed pops: in-range indices, full-capacity backing array,
the count accounting, pops forming an initial segment of pushes, and the
ring slots from `tail` holding exactly the not-yet-popped pushes. -/
structure RingInv {α : Type} (r : RingBuffer α) (pushed popped : List α) : Prop where
  hhead : r.head < CAP
  htail : r.tail < CAP
  hlen : r.data.length = CAP
  hcount : pushed.length = popped.length + ringCount r
  hpref : popped <+: pushed
  hdata : ∀ i, i < ringCount r → r.data[(r.tail + i) % CAP]? = pushed[popped.length + i]?

/-- Appending the element found just past a list-prefix extends the
prefix. -/
theorem prefix_snoc {α : Type} {l₁ l₂ : List α} {x : α} (hp : l₁ <+: l₂)
    (hx : l₂[l₁.length]? = some x) : l₁ ++ [x] <+: l₂ := by
  obtain ⟨tl, rfl⟩ := hp
  rw [List.getElem?_append_right (Nat.le_refl _), Nat.sub_self] at hx
  cases tl with
  | nil => simp at hx
  | cons y ys =>
    simp only [List.getElem?_cons_zero, Option.some_inj] at hx
    subst hx
    exact ⟨ys, by simp⟩

/-- `push` preserves the invariant, recording the value in the push
history exactly when it is accepted. -/
theorem ringInv_push {α : Type} {r : RingBuffer α} {pushed popped : List α}
    (inv : RingInv r pushed popped) (v : α) :
    RingInv (r.push v).1 (pushed ++ if (r.push v).2 then [v] else []) popped := by
  obtain ⟨hh, ht, hlen, hcount, hpref, hdata⟩ := inv
  by_cases hc : (r.head + 1) % CAP = r.tail
  · have hps : r.push v = (r, false) := by
      simp only [RingBuffer.push, if_pos hc]
    rw [hps]
    show RingInv r (pushed ++ []) popped
    rw [List.append_nil]
    exact ⟨hh, ht, hlen, hcount, hpref, hdata⟩
  · have hps : r.push v = (⟨(r.head + 1) % CAP, r.tail, r.data.set r.head v⟩, true) := by
      simp only [RingBuffer.push, if_neg hc]
    rw [hps]
    show RingInv ⟨(r.head + 1) % CAP, r.tail, r.data.set r.head v⟩ (pushed ++ [v]) popped
    have hcnt : ringCount ⟨(r.head + 1) % CAP, r.tail, r.data.set r.head v⟩ =
        ringCount r + 1 := count_push r.head r.tail hh ht hc
    refine ⟨Nat.mod_lt _ (by simp only [CAP]; omega), ht, by simp [hlen], ?_, ?_, ?_⟩
    · simp only [hcnt, List.length_append, List.length_cons, List.length_nil, hcount]
      omega
    · obtain ⟨tl, htl⟩ := hpref
      exact ⟨tl ++ [v], by rw [← List.append_assoc, htl]⟩
    · intro i hi
      simp only [hcnt] at hi
      by_cases hlt : i < ringCount r
      · have hne : (r.tail + i) % CAP ≠ r.head :=
          tail_add_lt_ne r.head r.tail i hh ht hlt
        have hidx : popped.length + i < pushed.length := by omega
        calc (r.data.set r.head v)[(r.tail + i) % CAP]?
            = r.data[(r.tail + i) % CAP]? := List.getElem?_set_ne (Ne.symm hne)
          _ = pushed[popped.length + i]? := hdata i hlt
          _ = (pushed ++ [v])[popped.length + i]? :=
              (List.getElem?_append_left hidx).symm
      · have hieq : i = ringCount r := by omega
        subst hieq
        have hidx : (r.tail + ringCount r) % CAP = r.head :=
          tail_add_count r.head r.tail hh ht
        have hplen : popped.length + ringCount r = pushed.length := hcount.symm
        rw [hidx, hplen, List.getElem?_concat_length]
        exact List.getElem?_set_self (by rw [hlen]; exact hh)

/-- `pop` preserves the invariant, recording the value in the pop history
exactly when one is returned. -/
theorem ringInv_pop {α : Type} {r : RingBuffer α} {pushed popped : List α}
    (inv : RingInv r pushed popped) :
    RingInv (r.pop).1 pushed (popped ++ (r.pop).2.toList) := by
  obtain ⟨hh, ht, hlen, hcount, hpref, hdata⟩ := inv
  by_cases hc : r.tail = r.head
  · have hps : r.pop = (r, none) := by
      simp only [RingBuffer.pop, if_pos hc]
    rw [hps]
    show RingInv r pushed (popped ++ [])
    rw [List.append_nil]
    exact ⟨hh, ht, hlen, hcount, hpref, hdata⟩
  · have hps : r.pop = (⟨r.head, (r.tail + 1) % CAP, r.data⟩, r.data[r.tail]?) := by
      simp only [RingBuffer.pop, if_neg hc]
    have hpos : 0 < ringCount r := by
      rcases Nat.eq_zero_or_pos (ringCount r) with h0 | h0
      · exact absurd ((count_zero_iff r.head r.tail hh ht).mp h0) hc
      · exact h0
    have hhd : r.data[r.tail]? = pushed[popped.length]? := by
      have h0 := hdata 0 hpos
      rwa [Nat.add_zero, Nat.mod_eq_of_lt ht, Nat.add_zero] at h0
    have hplt : popped.length < pushed.length := by
      have := hcount; omega
    have hsome : pushed[popped.length]? = some pushed[popped.length] :=
      List.getElem?_eq_getElem hplt
    have hcnt : ringCount ⟨r.head, (r.tail + 1) % CAP, r.data⟩ + 1 = ringCount r :=
      count_pop r.head r.tail hh ht hc
    rw [hps, hhd, hsome]
    show RingInv ⟨r.head, (r.tail + 1) % CAP, r.data⟩ pushed
      (popped ++ [pushed[popped.length]])
    refine ⟨hh, Nat.mod_lt _ (by simp only [CAP]; omega), hlen, ?_, ?_, ?_⟩
    · simp only [List.length_append, List.length_cons, List.length_nil]
      omega
    · exact prefix_snoc hpref hsome
    · intro i hi
      have hi' : i + 1 < ringCount r := by omega
      have hshift : (((r.tail + 1) % CAP) + i) % CAP = (r.tail + (i + 1)) % CAP := by
        rw [Nat.mod_add_mod]
        congr 1
        omega
      have hlenp : (popped ++ [pushed[popped.length]]).length + i =
          popped.length + (i + 1) := by
        simp only [List.length_append, List.length_cons, List.length_nil]
        omega
      calc r.data[(((r.tail + 1) % CAP) + i) % CAP]?
          = r.data[(r.tail + (i + 1)) % CAP]? := by rw [hshift]
        _ = pushed[popped.length + (i + 1)]? := hdata (i + 1) hi'
        _ = pushed[(popped ++ [pushed[popped.length]]).length + i]? := by rw [hlenp]

/-- The invariant holds along every event trace. -/
theorem runRingFrom_inv {α : Type} (ops : List (RingOp α)) :
    ∀ (r : RingBuffer α) (pushed popped : List α), RingInv r pushed popped →
      RingInv (runRingFrom r pushed popped ops).1
        (runRingFrom r pushed popped ops).2.1
        (runRingFrom r pushed popped ops).2.2 := by
  induction ops with
  | nil => intro r pushed popped inv; exact inv
  | cons op ops ih =>
    intro r pushed popped inv
    cases op with
    | push v => exact ih _ _ _ (ringInv_push inv v)
    | pop => exact ih _ _ _ (ringInv_pop inv)

/-- The initial ring satisfies the invariant with empty histories. -/
theorem ringInit_inv {α : Type} [Inhabited α] :
    RingInv (ringInit : RingBuffer α) [] [] := by
  refine ⟨by simp only [ringInit, CAP]; omega, by simp only [ringInit, CAP]; omega,
    by simp [ringInit], ?_, List.nil_prefix, ?_⟩
  · simp [ringInit, ringCount, Nat.mod_self]
  · intro i hi
    simp only [ringInit, ringCount, Nat.sub_zero, Nat.add_zero, Nat.mod_self] at hi
    exact absurd hi (Nat.not_lt_zero i)

/-- C7: in the sequential (linearized) model of the capacity-128 SPSC
ring, for every trace of push/pop events the popped values form a prefix
of the accepted pushed values (in order, and duplicate-free whenever the
pushed values are), and at every reachable state a push fails exactly when
the ring holds `CAP - 1` elements. -/
theorem ring_spsc {α : Type} [Inhabited α] (ops : List (RingOp α)) :
    (runRing ops).2.2 <+: (runRing ops).2.1 ∧
    ((runRing ops).2.1.Nodup → (runRing ops).2.2.Nodup) ∧
    ∀ v : α, ((runRing ops).1.push v).2 = false ↔
      ringCount (runRing ops).1 = CAP - 1 := by
  have inv := runRingFrom_inv ops ringInit [] [] ringInit_inv
  refine ⟨inv.hpref, fun hnd => hnd.sublist inv.hpref.sublist, fun v => ?_⟩
  unfold RingBuffer.push ringCount
  by_cases hc : ((runRing ops).1.head + 1) % CAP = (runRing ops).1.tail
  · simp only [if_pos hc]
    exact iff_of_true (by trivial) ((push_fail_iff _ _ inv.hhead inv.htail).mp hc)
  · simp only [if_neg hc]
    refine iff_of_false (by simp) ?_
    intro hcnt
    exact hc ((push_fail_iff _ _ inv.hhead inv.htail).mpr hcnt)

/-- C7 witness: a concrete trace — two accepted pushes then a pop; the
popped history is duplicate-free and a further push is accepted (the ring
is far from full). -/
theorem ring_spsc_witness :
    (runRing [RingOp.push (1 : Nat), RingOp.push 2, RingOp.pop]).2.2.Nodup ∧
    ¬((runRing [RingOp.push (1 : Nat), RingOp.push 2, RingOp.pop]).1.push 9).2 = false := by
  constructor
  · exact (ring_spsc [RingOp.push (1 : Nat), RingOp.push 2, RingOp.pop]).2.1 (by decide)
  · intro hfail
    have h := (ring_spsc [RingOp.push (1 : Nat), RingOp.push 2, RingOp.pop]).2.2 9
    exact absurd (h.mp hfail) (by decide)

/-- C6 witness: with slot 0 active for "a" and slot 1 free, registering
"b" claims slot 1. -/
theorem registry_register_spec_witness :
    registry_register
        [⟨true, "a".toList, "qa".toList⟩, ⟨false, [], []⟩] "b".toList "qb".toList =
      ([⟨true, "a".toList, "qa".toList⟩, ⟨true, "b".toList, "qb".toList⟩], some 1) := by
  exact (registry_register_spec
      [⟨true, "a".toList, "qa".toList⟩, ⟨false, [], []⟩] "b".toList "qb".toList).2.1
    (by decide) 1 (by decide)

end SyncText
